import Mathlib

/-
Verification of the fixed-capacity intrusive FIFO list implemented in
`src/lib.rs` (`FixedSizePriorityBuffer<T>`).

The Rust code stores nodes in individually boxed heap cells linked by
`Link<T> = Option<Box<Node<T>>>` (forward, owning) and `Rawlink<Node<T>>`
(backward, a possibly-null raw pointer).  The shallow embedding models heap
memory as a total map `Nat → Node T` (an address space: unallocated
addresses hold junk), both link kinds as `Option Nat` (an optional address;
`none` is the null `Rawlink` / the empty `Link`), and `Box::new` as handing
out a fresh address from a monotone allocation counter.  A Rust `panic!` is
modelled as the `Except.error` branch, carrying the panic message and the
state of the structure at the moment of the panic.
-/

namespace FSPB

/-- Mirrors `struct Node<T> { next: Link<T>, prev: Rawlink<Node<T>>, value: Option<T> }`.
Both link kinds are optional addresses into the heap. -/
structure Node (T : Type) where
  next : Option Nat
  prev : Option Nat
  value : Option T

/-- Raw memory: a total map from addresses to node cells. -/
def Heap (T : Type) : Type := Nat → Node T

/-- Write the node `n` at address `a`. -/
def Heap.set {T : Type} (h : Heap T) (a : Nat) (n : Node T) : Heap T :=
  fun x => if x = a then n else h x

/-- `Node::empty()`: `Node{value: None, next: None, prev: Rawlink::none()}`. -/
def Node.empty {T : Type} : Node T := ⟨none, none, none⟩

/-- `Node::new(v)`: `Node{value: Some(v), next: None, prev: Rawlink::none()}`. -/
def Node.new {T : Type} (v : T) : Node T := ⟨none, none, some v⟩

/-- `Node::set_next`, called as `(self at a).set_next(box at b)`:
`next.prev = Rawlink::some(self); self.next = Some(next)`. -/
def set_next {T : Type} (h : Heap T) (a b : Nat) : Heap T :=
  Heap.set (Heap.set h b { h b with prev := some a }) a
    { (Heap.set h b { h b with prev := some a }) a with next := some b }

/-- `link_no_prev(box at a)`: clears the box's `prev` and wraps it in `Some`. -/
def link_no_prev {T : Type} (h : Heap T) (a : Nat) : Heap T × Option Nat :=
  (Heap.set h a { h a with prev := none }, some a)

/-- The fields of `FixedSizePriorityBuffer<T>`; the boxed nodes that the
`Link` fields own live in the heap of the enclosing `BufState`. -/
structure FixedSizePriorityBuffer where
  capacity : Nat
  size : Nat
  first : Option Nat
  last : Option Nat
  first_empty : Option Nat
  last_empty : Option Nat

/-- A buffer together with the memory backing its nodes and the allocation
counter modelling `Box::new` (fresh addresses are handed out in order). -/
structure BufState (T : Type) where
  buf : FixedSizePriorityBuffer
  heap : Heap T
  nextAddr : Nat

/-- The loop `for _ in 1..capacity` of `FixedSizePriorityBuffer::new`, with
the iteration count as last argument: each round boxes a fresh
`Node::empty()` at the next free address `nx` and pushes it on the front of
the free chain via `set_next`.  Returns the final heap, the address held by
`first_empty`, and the final allocation counter. -/
def newLoop {T : Type} : Heap T → Nat → Nat → Nat → Heap T × Nat × Nat
  | h, firstE, nx, 0 => (h, firstE, nx)
  | h, firstE, nx, k + 1 =>
      newLoop (set_next (Heap.set h nx Node.empty) nx firstE) nx (nx + 1) k

/-- `FixedSizePriorityBuffer::new(capacity)`: one `Node::empty()` box is
created unconditionally at address `0` (`last_empty` captures it), the loop
adds `capacity - 1` more, and `link_no_prev` clears the head's `prev`. -/
def BufState.new (T : Type) (capacity : Nat) : BufState T :=
  let r := newLoop (Heap.set (fun _ => Node.empty) 0 Node.empty) 0 1 (capacity - 1)
  { buf := { capacity := capacity
             size := 0
             first := none
             last := none
             first_empty := (link_no_prev r.1 r.2.1).2
             last_empty := some 0 }
    heap := (link_no_prev r.1 r.2.1).1
    nextAddr := r.2.2 }

/-- `FixedSizePriorityBuffer::enqueue`.  The guard `size >= capacity` fires
a `panic!` (modelled as `Except.error` carrying the message and the state at
the panic, which is untouched).  Otherwise a brand-new box is allocated for
the value and appended at the tail. -/
def enqueue {T : Type} (s : BufState T) (v : T) : Except (String × BufState T) (BufState T) :=
  if s.buf.size ≥ s.buf.capacity then
    .error ("No remaining capacity to enqueue", s)
  else
    match s.buf.last with
    | none =>
        .ok { buf := { s.buf with
                        first := some s.nextAddr
                        last := some s.nextAddr
                        size := s.buf.size + 1 }
              heap := Heap.set s.heap s.nextAddr (Node.new v)
              nextAddr := s.nextAddr + 1 }
    | some l =>
        .ok { buf := { s.buf with
                        last := some s.nextAddr
                        size := s.buf.size + 1 }
              heap := set_next (Heap.set s.heap s.nextAddr (Node.new v)) l s.nextAddr
              nextAddr := s.nextAddr + 1 }

/-- `FixedSizePriorityBuffer::dequeue`.  `self.first.take()` removes the
head box; `first_node.next.take()` clears its forward link (the box is
dropped afterwards, its memory merely becomes unreachable); the successor,
if any, gets `prev` cleared by `link_no_prev` and becomes the new head.
The final `.expect` on the value is a `panic!` when the value is absent. -/
def dequeue {T : Type} (s : BufState T) : Except (String × BufState T) (Option T × BufState T) :=
  match s.buf.first with
  | none => .ok (none, s)
  | some f =>
      let h1 := Heap.set s.heap f { s.heap f with next := none }
      match (s.heap f).next with
      | some n =>
          let h2 := (link_no_prev h1 n).1
          let s2 : BufState T :=
            { buf := { s.buf with
                        first := some n
                        size := s.buf.size - 1 }
              heap := h2
              nextAddr := s.nextAddr }
          match (s.heap f).value with
          | some v => .ok (some v, s2)
          | none => .error ("Value should always be Some when being dequeued", s2)
      | none =>
          let s2 : BufState T :=
            { buf := { s.buf with
                        first := none
                        last := none
                        size := s.buf.size - 1 }
              heap := h1
              nextAddr := s.nextAddr }
          match (s.heap f).value with
          | some v => .ok (some v, s2)
          | none => .error ("Value should always be Some when being dequeued", s2)

/-- `insert_slice(range_start, range_end, target_start, target_end)`: the
four arguments are the current values of the four link lvalues; the result
(on success) is the heap together with the four values to be written back.
The body is a literal trace of the source's two `ptr::copy_nonoverlapping`
rotation blocks: first the backward links are rotated (`range_start`'s
node's `prev`, `*target_end`, `*range_end`), then the forward links
(`*range_start`, the end node's `next`, `*target_start`), reading the end
node's `next` only after the backward rotation, exactly as the source
captures `before_end_node` first. -/
def insert_slice {T : Type} (h : Heap T) (range_start range_end target_start target_end : Option Nat) :
    Except String (Heap T × Option Nat × Option Nat × Option Nat × Option Nat) :=
  match range_start, range_end with
  | none, _ => .error ("range_start must not be none")
  | some _, none => .error ("range_end must not be none")
  | some s0, some e0 =>
      let temp := (h s0).prev
      let h1 := Heap.set h s0 { h s0 with prev := target_end }
      let target_end1 := some e0
      let range_end1 := temp
      let temp2 : Option Nat := some s0
      let range_start1 := (h1 e0).next
      let h2 := Heap.set h1 e0 { h1 e0 with next := target_start }
      let target_start1 := temp2
      .ok (h2, range_start1, range_end1, target_start1, target_end1)

/-- Walk a `next`-linked chain starting from an optional address, with
explicit fuel; returns the list of addresses visited before hitting a
null link (or running out of fuel). -/
def chainListFuel {T : Type} (h : Heap T) : Nat → Option Nat → List Nat
  | 0, _ => []
  | _ + 1, none => []
  | fuel + 1, some a => a :: chainListFuel h fuel (h a).next

/-- `chain h p f addrs`: starting at the link value `f`, the addresses
`addrs` form a `next`-linked chain in `h` whose `prev` links point one step
back (the first node's `prev` being `p`), ending in a null `next`. -/
def chain {T : Type} (h : Heap T) : Option Nat → Option Nat → List Nat → Prop
  | _, f, [] => f = none
  | p, f, a :: rest => f = some a ∧ (h a).prev = p ∧ chain h (some a) (h a).next rest

/-- `seg h p f addrs q`: a doubly linked run of `addrs` starting at the
link value `f`, the first node's `prev` being `p`, each later node's `prev`
pointing one step back, and the last node's `next` being `q`.  A `chain` is
exactly a segment whose continuation `q` is none; a proper middle range of a
larger list is a segment with non-null `p` and `q`. -/
def seg {T : Type} (h : Heap T) : Option Nat → Option Nat → List Nat → Option Nat → Prop
  | _, f, [], q => f = q
  | p, f, a :: rest, q => f = some a ∧ (h a).prev = p ∧ seg h (some a) (h a).next rest q

/-- The observable state reached by one `enqueue` on a freshly constructed
buffer of capacity 1. -/
def afterOneEnqueue : BufState Nat :=
  match enqueue (BufState.new Nat 1) 42 with
  | .ok s => s
  | .error e => e.2

/-- Sequential enqueues; stops at the first panic. -/
def enqueueAll {T : Type} : BufState T → List T → Except (String × BufState T) (BufState T)
  | s, [] => .ok s
  | s, v :: vs =>
      match enqueue s v with
      | .ok s' => enqueueAll s' vs
      | .error e => .error e

/-- `n` sequential dequeues, collecting the returned values in order. -/
def dequeueN {T : Type} : BufState T → Nat → Except (String × BufState T) (List (Option T) × BufState T)
  | s, 0 => .ok ([], s)
  | s, n + 1 =>
      match dequeue s with
      | .ok (r, s') =>
          match dequeueN s' n with
          | .ok (rs, s'') => .ok (r :: rs, s'')
          | .error e => .error e
      | .error e => .error e

/-- Construct a buffer of capacity `c`, enqueue `vs` in order, then dequeue
`vs.length` times, returning the dequeued values. -/
def fifoRun (T : Type) (c : Nat) (vs : List T) : Except (String × BufState T) (List (Option T)) :=
  match enqueueAll (BufState.new T c) vs with
  | .ok s => (dequeueN s vs.length).map (fun p => p.1)
  | .error e => .error e

/-- The representation invariant tying a buffer state to the address list
`occ` of its occupied chain, the address list `free` of its preallocated
free chain, and the (in-order) list `vs` of stored values. -/
structure Inv {T : Type} (s : BufState T) (occ free : List Nat) (vs : List T) : Prop where
  hocc : chain s.heap none s.buf.first occ
  hlast : s.buf.last = occ.getLast?
  hfree : chain s.heap none s.buf.first_empty free
  hlastE : s.buf.last_empty = free.getLast?
  hvals : occ.map (fun a => (s.heap a).value) = vs.map some
  hsize : s.buf.size = occ.length
  hcap : occ.length ≤ s.buf.capacity
  hfreelen : free.length = max s.buf.capacity 1
  hnodup : (occ ++ free).Nodup
  hbound : ∀ a ∈ occ ++ free, a < s.nextAddr

/-- States reachable through the public API: freshly constructed, or the
result of a successful `enqueue` or `dequeue` on a reachable state. -/
inductive Reachable {T : Type} : BufState T → Prop
  | new (c : Nat) : Reachable (BufState.new T c)
  | enq {s s' : BufState T} (v : T) : Reachable s → enqueue s v = .ok s' → Reachable s'
  | deq {s s' : BufState T} {r : Option T} : Reachable s → dequeue s = .ok (r, s') → Reachable s'

theorem mem_of_getLast? {l : List Nat} {a : Nat} (h : l.getLast? = some a) : a ∈ l := by
  have hm : a ∈ l.getLast? := by rw [h]; rfl
  obtain ⟨hne, rfl⟩ := List.mem_getLast?_eq_getLast hm
  exact List.getLast_mem hne

theorem chain_congr {T : Type} {h h' : Heap T} :
    ∀ {addrs : List Nat} {p f : Option Nat},
      (∀ a ∈ addrs, h' a = h a) → chain h p f addrs → chain h' p f addrs := by
  intro addrs
  induction addrs with
  | nil => intro p f _ hc; exact hc
  | cons a rest ih =>
      intro p f hag hc
      obtain ⟨hf, hp, hrest⟩ := hc
      have ha : h' a = h a := hag a (by simp)
      refine ⟨hf, by rw [ha]; exact hp, ?_⟩
      rw [ha]
      exact ih (fun x hx => hag x (by simp [hx])) hrest

theorem chain_last_next {T : Type} {h : Heap T} :
    ∀ {addrs : List Nat} {p f : Option Nat} {a : Nat},
      chain h p f addrs → addrs.getLast? = some a → (h a).next = none := by
  intro addrs
  induction addrs with
  | nil => intro p f a _ hl; simp at hl
  | cons x rest ih =>
      intro p f a hc hl
      obtain ⟨hf, hp, hrest⟩ := hc
      cases rest with
      | nil =>
          simp at hl
          subst hl
          exact hrest
      | cons y t =>
          rw [List.getLast?_cons_cons] at hl
          exact ih hrest hl

theorem chain_head_prev {T : Type} {h : Heap T} {p f : Option Nat} {a : Nat} {rest : List Nat}
    (hc : chain h p f (a :: rest)) : (h a).prev = p :=
  hc.2.1

/-- Appending a fresh tail node `b` after the last node `l` of a chain:
any heap that agrees with `h` away from `l`, redirects `(h l).next` to `b`
(keeping its `prev`), and stores at `b` a node with `next = none`,
`prev = some l`, carries the chain extended by `b`. -/
theorem chain_snoc {T : Type} {h h' : Heap T} {l b : Nat} :
    ∀ {addrs : List Nat} {p f : Option Nat},
      chain h p f addrs → addrs.getLast? = some l → addrs.Nodup → b ∉ addrs →
      (∀ x ∈ addrs, x ≠ l → h' x = h x) →
      (h' l).next = some b → (h' l).prev = (h l).prev →
      (h' b).next = none → (h' b).prev = some l →
      chain h' p f (addrs ++ [b]) := by
  intro addrs
  induction addrs with
  | nil => intro p f _ hl; simp at hl
  | cons x rest ih =>
      intro p f hc hl hnd hb hag hln hlp hbn hbp
      obtain ⟨hf, hp, hrest⟩ := hc
      cases rest with
      | nil =>
          simp at hl
          subst hl
          refine ⟨hf, by rw [hlp]; exact hp, ?_⟩
          rw [hln]
          exact ⟨rfl, hbp, by rw [hbn]; rfl⟩
      | cons y t =>
          have hxl : x ≠ l := by
            rw [List.getLast?_cons_cons] at hl
            intro heq
            subst heq
            exact (List.nodup_cons.mp hnd).1 (mem_of_getLast? hl)
          have hx : h' x = h x := hag x (by simp) hxl
          refine ⟨hf, by rw [hx]; exact hp, ?_⟩
          rw [hx]
          exact ih hrest (by rw [List.getLast?_cons_cons] at hl; exact hl)
            (List.nodup_cons.mp hnd).2 (fun hm => hb (by simp [hm]))
            (fun z hz hzl => hag z (by simp [hz]) hzl) hln hlp hbn hbp

/-- Every in-chain forward link lands in the chain, on a node whose `prev`
points back. -/
theorem chain_next_closed {T : Type} {h : Heap T} :
    ∀ {addrs : List Nat} {p f : Option Nat},
      chain h p f addrs →
      ∀ a ∈ addrs, ∀ b, (h a).next = some b → b ∈ addrs ∧ (h b).prev = some a := by
  intro addrs
  induction addrs with
  | nil => intro p f _ a ha; simp at ha
  | cons x rest ih =>
      intro p f hc a ha b hnx
      obtain ⟨hf, hp, hrest⟩ := hc
      rcases List.mem_cons.mp ha with rfl | hmem
      · rw [hnx] at hrest
        cases rest with
        | nil => simp [chain] at hrest
        | cons y t =>
            obtain ⟨hy, hyp, _⟩ := hrest
            cases hy
            exact ⟨by simp, hyp⟩
      · obtain ⟨hbm, hbp⟩ := ih hrest a hmem b hnx
        exact ⟨by simp [hbm], hbp⟩

/-- Every in-chain backward link either reproduces the chain's entry `prev`
at the head, or lands in the chain on a node whose `next` points forward. -/
theorem chain_prev_closed {T : Type} {h : Heap T} :
    ∀ {addrs : List Nat} {p f : Option Nat},
      chain h p f addrs →
      ∀ a ∈ addrs, ∀ b, (h a).prev = some b →
        (addrs.head? = some a ∧ p = some b) ∨ (b ∈ addrs ∧ (h b).next = some a) := by
  intro addrs
  induction addrs with
  | nil => intro p f _ a ha; simp at ha
  | cons x rest ih =>
      intro p f hc a ha b hpv
      obtain ⟨hf, hp, hrest⟩ := hc
      rcases List.mem_cons.mp ha with rfl | hmem
      · left
        exact ⟨by simp, by rw [← hpv]; exact hp.symm⟩
      · rcases ih hrest a hmem b hpv with ⟨hhd, hpx⟩ | ⟨hbm, hbn⟩
        · right
          cases hpx
          refine ⟨by simp, ?_⟩
          cases rest with
          | nil => simp at hhd
          | cons y t =>
              simp at hhd
              subst hhd
              exact hrest.1
        · right
          exact ⟨by simp [hbm], hbn⟩

theorem Heap.set_same {T : Type} (h : Heap T) (a : Nat) (n : Node T) : Heap.set h a n a = n := by
  simp [Heap.set]

theorem Heap.set_other {T : Type} (h : Heap T) (a x : Nat) (n : Node T) (hx : x ≠ a) :
    Heap.set h a n x = h x := by
  simp [Heap.set, hx]

theorem enqueue_full {T : Type} {s : BufState T} (v : T) (hge : s.buf.capacity ≤ s.buf.size) :
    enqueue s v = .error ("No remaining capacity to enqueue", s) := by
  unfold enqueue
  rw [if_pos hge]

theorem chain_singleton {T : Type} {h : Heap T} {p : Option Nat} {a : Nat}
    (h1 : (h a).prev = p) (h2 : (h a).next = none) : chain h p (some a) [a] :=
  ⟨rfl, h1, h2⟩

theorem enqueue_ok {T : Type} {s : BufState T} {occ free : List Nat} {vs : List T}
    (hI : Inv s occ free vs) (v : T) (hlt : s.buf.size < s.buf.capacity) :
    ∃ s', enqueue s v = .ok s' ∧ Inv s' (occ ++ [s.nextAddr]) free (vs ++ [v]) ∧
      s'.buf.capacity = s.buf.capacity ∧
      s'.buf.first_empty = s.buf.first_empty ∧
      s'.buf.last_empty = s.buf.last_empty ∧
      (∀ x ∈ free, s'.heap x = s.heap x) ∧
      s'.nextAddr = s.nextAddr + 1 ∧
      s'.buf.last = some s.nextAddr := by
  have hguard : ¬ (s.buf.size ≥ s.buf.capacity) := by omega
  have hfresh : ∀ x ∈ occ ++ free, x ≠ s.nextAddr := fun x hx => Nat.ne_of_lt (hI.hbound x hx)
  have hdisj : occ.Disjoint free := (List.nodup_append.mp hI.hnodup).2.2
  have hoccnd : occ.Nodup := (List.nodup_append.mp hI.hnodup).1
  have hfreend : free.Nodup := (List.nodup_append.mp hI.hnodup).2.1
  cases hsh : occ with
  | nil =>
      subst hsh
      have hvs : vs = [] := by
        have h2 := hI.hvals
        simp only [List.map_nil] at h2
        exact List.map_eq_nil_iff.mp h2.symm
      subst hvs
      have hlastnone : s.buf.last = none := by rw [hI.hlast]; rfl
      refine ⟨{ buf := { s.buf with
                          first := some s.nextAddr
                          last := some s.nextAddr
                          size := s.buf.size + 1 }
                heap := Heap.set s.heap s.nextAddr (Node.new v)
                nextAddr := s.nextAddr + 1 },
              by unfold enqueue; rw [if_neg hguard, hlastnone], ?_, rfl, rfl, rfl, ?_, rfl, rfl⟩
      · have hsz : s.buf.size = 0 := by simpa using hI.hsize
        refine ⟨?_, ?_, ?_, ?_, ?_, ?_, ?_, ?_, ?_, ?_⟩ <;> dsimp only
        · exact chain_singleton (by rw [Heap.set_same]; rfl) (by rw [Heap.set_same]; rfl)
        · simp
        · refine chain_congr (fun x hx => ?_) hI.hfree
          exact Heap.set_other _ _ _ _ (hfresh x (by simp [hx]))
        · exact hI.hlastE
        · show [(Heap.set s.heap s.nextAddr (Node.new v) s.nextAddr).value] = _
          rw [Heap.set_same]
          rfl
        · simp [hsz]
        · simp
          omega
        · exact hI.hfreelen
        · simp only [List.nil_append, List.singleton_append]
          exact List.nodup_cons.mpr ⟨fun hm => hfresh _ (by simp [hm]) rfl, hfreend⟩
        · intro x hx
          simp at hx
          rcases hx with rfl | hx
          · omega
          · have := hI.hbound x (by simp [hx])
            omega
      · intro x hx
        dsimp only
        exact Heap.set_other _ _ _ _ (hfresh x (by simp [hx]))
  | cons o os =>
      have hne : occ ≠ [] := by rw [hsh]; simp
      rw [← hsh]
      obtain ⟨l, hl⟩ : ∃ l, occ.getLast? = some l := by
        rw [hsh]
        cases hq : (o :: os).getLast? with
        | none =>
            exfalso
            have : (o :: os) = [] := List.getLast?_eq_none_iff.mp hq
            simp at this
        | some z => exact ⟨z, rfl⟩
      have hlmem : l ∈ occ := mem_of_getLast? hl
      have hlenlt : l < s.nextAddr := hI.hbound l (by simp [hlmem])
      have hla : l ≠ s.nextAddr := Nat.ne_of_lt hlenlt
      have hlastsome : s.buf.last = some l := by rw [hI.hlast, hl]
      set h' := set_next (Heap.set s.heap s.nextAddr (Node.new v)) l s.nextAddr with hh'
      have hh'a : h' s.nextAddr = ⟨none, some l, some v⟩ := by
        rw [hh']
        unfold set_next
        rw [Heap.set_other _ _ _ _ (Ne.symm hla), Heap.set_same, Heap.set_same]
        rfl
      have hh'l : h' l = ⟨some s.nextAddr, (s.heap l).prev, (s.heap l).value⟩ := by
        rw [hh']
        unfold set_next
        rw [Heap.set_same, Heap.set_other _ _ _ _ hla, Heap.set_other _ _ _ _ hla]
      have hh'x : ∀ x, x ≠ s.nextAddr → x ≠ l → h' x = s.heap x := by
        intro x hxa hxl
        rw [hh']
        unfold set_next
        rw [Heap.set_other _ _ _ _ hxl, Heap.set_other _ _ _ _ hxa, Heap.set_other _ _ _ _ hxa]
      have hfval : ∀ x ∈ occ, (fun y => (h' y).value) x = (fun y => (s.heap y).value) x := by
        intro x hx
        show (h' x).value = (s.heap x).value
        by_cases hxl : x = l
        · subst hxl; rw [hh'l]
        · rw [hh'x x (hfresh x (by simp [hx])) hxl]
      refine ⟨{ buf := { s.buf with
                          last := some s.nextAddr
                          size := s.buf.size + 1 }
                heap := h'
                nextAddr := s.nextAddr + 1 },
              by unfold enqueue; rw [if_neg hguard, hlastsome], ?_, rfl, rfl, rfl, ?_, rfl, rfl⟩
      · refine ⟨?_, ?_, ?_, ?_, ?_, ?_, ?_, ?_, ?_, ?_⟩ <;> dsimp only
        · exact chain_snoc hI.hocc hl hoccnd
            (fun hm => hfresh s.nextAddr (by simp [hm]) rfl)
            (fun x hx hxl => hh'x x (hfresh x (by simp [hx])) hxl)
            (by rw [hh'l]) (by rw [hh'l]) (by rw [hh'a]) (by rw [hh'a])
        · simp [List.getLast?_concat]
        · refine chain_congr (fun x hx => ?_) hI.hfree
          exact hh'x x (hfresh x (by simp [hx])) (fun hxl => hdisj hlmem (hxl ▸ hx))
        · exact hI.hlastE
        · rw [List.map_append, List.map_append]
          congr 1
          · rw [← hI.hvals]
            exact List.map_congr_left hfval
          · simp [hh'a]
        · simp [hI.hsize]
        · have h1 := hI.hsize
          simp
          omega
        · exact hI.hfreelen
        · rw [List.append_assoc, List.singleton_append, List.nodup_middle]
          exact List.nodup_cons.mpr ⟨fun hm => hfresh _ hm rfl, hI.hnodup⟩
        · intro x hx
          rcases List.mem_append.mp hx with hx1 | hxf
          · rcases List.mem_append.mp hx1 with hxo | hxa
            · have := hI.hbound x (List.mem_append_left _ hxo); omega
            · have : x = s.nextAddr := by simpa using hxa
              omega
          · have := hI.hbound x (List.mem_append_right _ hxf); omega
      · intro x hx
        dsimp only
        exact hh'x x (hfresh x (by simp [hx])) (fun hxl => hdisj hlmem (hxl ▸ hx))

theorem dequeue_nil {T : Type} {s : BufState T} {free : List Nat} {vs : List T}
    (hI : Inv s [] free vs) : dequeue s = .ok (none, s) := by
  have hfn : s.buf.first = none := hI.hocc
  unfold dequeue
  rw [hfn]

theorem dequeue_cons {T : Type} {s : BufState T} {f : Nat} {rest free : List Nat} {v : T}
    {vs : List T} (hI : Inv s (f :: rest) free (v :: vs)) :
    ∃ s', dequeue s = .ok (some v, s') ∧ Inv s' rest free vs ∧
      s'.buf.capacity = s.buf.capacity ∧
      s'.buf.size = s.buf.size - 1 ∧
      s'.buf.first = (s.heap f).next ∧
      s'.buf.first_empty = s.buf.first_empty ∧
      s'.buf.last_empty = s.buf.last_empty ∧
      (∀ x ∈ free, s'.heap x = s.heap x) ∧
      s'.nextAddr = s.nextAddr := by
  obtain ⟨hfs, hfprev, htail⟩ := hI.hocc
  have hval : (s.heap f).value = some v := by
    have h2 := hI.hvals
    rw [List.map_cons, List.map_cons] at h2
    injection h2 with h3 _
  have hvals' : rest.map (fun a => (s.heap a).value) = vs.map some := by
    have h2 := hI.hvals
    rw [List.map_cons, List.map_cons] at h2
    injection h2 with _ h4
  have hfnotrest : f ∉ rest ++ free := by
    have := hI.hnodup
    rw [List.cons_append, List.nodup_cons] at this
    exact this.1
  have hrestnd : (rest ++ free).Nodup := by
    have := hI.hnodup
    rw [List.cons_append, List.nodup_cons] at this
    exact this.2
  have hdisj : (f :: rest).Disjoint free := (List.nodup_append.mp hI.hnodup).2.2
  have hfnfree : f ∉ free := fun hm => hdisj (by simp) hm
  cases hr : rest with
  | nil =>
      subst hr
      have hnx : (s.heap f).next = none := htail
      have hvs : vs = [] := by
        simp only [List.map_nil] at hvals'
        exact List.map_eq_nil_iff.mp hvals'.symm
      subst hvs
      refine ⟨{ buf := { s.buf with
                          first := none
                          last := none
                          size := s.buf.size - 1 }
                heap := Heap.set s.heap f { s.heap f with next := none }
                nextAddr := s.nextAddr },
              by unfold dequeue; rw [hfs]; dsimp only; rw [hnx]; dsimp only; rw [hval],
              ?_, rfl, rfl, by dsimp only; rw [hnx], rfl,
              rfl, ?_, rfl⟩
      · refine ⟨?_, ?_, ?_, ?_, ?_, ?_, ?_, ?_, ?_, ?_⟩ <;> dsimp only
        · rfl
        · rfl
        · refine chain_congr (fun x hx => ?_) hI.hfree
          exact Heap.set_other _ _ _ _ (fun hxf => hfnfree (hxf ▸ hx))
        · exact hI.hlastE
        · rfl
        · have := hI.hsize
          simp only [List.length_cons, List.length_nil] at this ⊢
          omega
        · exact Nat.zero_le _
        · exact hI.hfreelen
        · simpa using hrestnd
        · intro x hx
          exact hI.hbound x (by simp at hx; simp [hx])
      · intro x hx
        dsimp only
        exact Heap.set_other _ _ _ _ (fun hxf => hfnfree (hxf ▸ hx))
  | cons n rest' =>
      subst hr
      have hnx : (s.heap f).next = some n := htail.1
      have hnprev : (s.heap n).prev = some f := htail.2.1
      have htail2 : chain s.heap (some n) ((s.heap n).next) rest' := htail.2.2
      have hfn : f ≠ n := by
        intro he
        exact hfnotrest (by simp [he])
      have hnrest' : n ∉ rest' ++ free := by
        rw [List.cons_append, List.nodup_cons] at hrestnd
        exact hrestnd.1
      have hh2n : (Heap.set (Heap.set s.heap f { s.heap f with next := none }) n
          { (Heap.set s.heap f { s.heap f with next := none }) n with prev := none }) n
          = ⟨(s.heap n).next, none, (s.heap n).value⟩ := by
        rw [Heap.set_same, Heap.set_other _ _ _ _ (Ne.symm hfn)]
      have hh2x : ∀ x, x ≠ f → x ≠ n →
          (Heap.set (Heap.set s.heap f { s.heap f with next := none }) n
            { (Heap.set s.heap f { s.heap f with next := none }) n with prev := none }) x
          = s.heap x := by
        intro x hxf hxn
        rw [Heap.set_other _ _ _ _ hxn, Heap.set_other _ _ _ _ hxf]
      refine ⟨{ buf := { s.buf with
                          first := some n
                          size := s.buf.size - 1 }
                heap := (link_no_prev (Heap.set s.heap f { s.heap f with next := none }) n).1
                nextAddr := s.nextAddr },
              by unfold dequeue; rw [hfs]; dsimp only; rw [hnx]; dsimp only; rw [hval],
              ?_, rfl, rfl, by dsimp only; rw [hnx], rfl,
              rfl, ?_, rfl⟩
      · refine ⟨?_, ?_, ?_, ?_, ?_, ?_, ?_, ?_, ?_, ?_⟩ <;> dsimp only
        · dsimp only [link_no_prev]
          refine ⟨rfl, by rw [hh2n], ?_⟩
          rw [hh2n]
          refine chain_congr (fun x hx => ?_) htail2
          exact hh2x x
            (fun hxf => hfnotrest (by have hm := hxf ▸ hx; simp at hm ⊢; tauto))
            (fun hxn => hnrest' (List.mem_append_left _ (hxn ▸ hx)))
        · rw [hI.hlast, List.getLast?_cons_cons]
        · dsimp only [link_no_prev]
          refine chain_congr (fun x hx => ?_) hI.hfree
          exact hh2x x (fun hxf => hfnfree (hxf ▸ hx))
            (fun hxn => hnrest' (List.mem_append_right _ (hxn ▸ hx)))
        · exact hI.hlastE
        · dsimp only [link_no_prev]
          rw [← hvals']
          refine List.map_congr_left (fun x hx => ?_)
          show _ = (s.heap x).value
          by_cases hxn : x = n
          · subst hxn
            rw [hh2n]
          · rw [hh2x x (fun hxf => hfnotrest (by have hm := hxf ▸ hx; simp at hm ⊢; tauto)) hxn]
        · have := hI.hsize
          simp only [List.length_cons, List.length_nil] at this ⊢
          omega
        · have h5 := hI.hcap
          simp only [List.length_cons] at h5 ⊢
          omega
        · exact hI.hfreelen
        · rw [List.cons_append, List.nodup_cons] at hrestnd ⊢
          exact hrestnd
        · intro x hx
          exact hI.hbound x (by simp at hx ⊢; tauto)
      · intro x hx
        dsimp only [link_no_prev]
        exact hh2x x (fun hxf => hfnfree (hxf ▸ hx))
          (fun hxn => hnrest' (List.mem_append_right _ (hxn ▸ hx)))

theorem newLoop_spec {T : Type} :
    ∀ (k : Nat) (h : Heap T) (fE nx : Nat) (addrs : List Nat),
      chain h none (some fE) addrs →
      addrs.head? = some fE →
      addrs.Nodup →
      (∀ a ∈ addrs, a < nx) →
      (∀ a ∈ addrs, (h a).value = none) →
      ∃ h' fE' addrs',
        newLoop h fE nx k = (h', fE', nx + k) ∧
        chain h' none (some fE') addrs' ∧
        addrs'.head? = some fE' ∧
        addrs'.Nodup ∧
        (∀ a ∈ addrs', a < nx + k) ∧
        (∀ a ∈ addrs', (h' a).value = none) ∧
        addrs'.length = addrs.length + k ∧
        addrs'.getLast? = addrs.getLast? := by
  intro k
  induction k with
  | zero =>
      intro h fE nx addrs hch hhd hnd hb hv
      exact ⟨h, fE, addrs, rfl, hch, hhd, hnd, by simpa using hb, hv, by simp, rfl⟩
  | succ k ih =>
      intro h fE nx addrs hch hhd hnd hb hv
      cases addrs with
      | nil => simp at hhd
      | cons a0 rest =>
          have ha0 : a0 = fE := by simpa using hhd
          subst ha0
          obtain ⟨-, hfEp, hrest⟩ := hch
          have hfEnx : a0 ≠ nx := Nat.ne_of_lt (hb a0 (by simp))
          have hrestnx : ∀ x ∈ rest, x ≠ nx := fun x hx => Nat.ne_of_lt (hb x (by simp [hx]))
          have hfEnotrest : a0 ∉ rest := (List.nodup_cons.mp hnd).1
          set h2 := set_next (Heap.set h nx Node.empty) nx a0 with hh2
          have h2nx : h2 nx = ⟨some a0, none, none⟩ := by
            rw [hh2]
            unfold set_next
            rw [Heap.set_same, Heap.set_other _ _ _ _ hfEnx.symm, Heap.set_same]
            rfl
          have h2fE : h2 a0 = ⟨(h a0).next, some nx, (h a0).value⟩ := by
            rw [hh2]
            unfold set_next
            rw [Heap.set_other _ _ _ _ hfEnx, Heap.set_same, Heap.set_other _ _ _ _ hfEnx]
          have h2x : ∀ x, x ≠ nx → x ≠ a0 → h2 x = h x := by
            intro x hxnx hxfE
            rw [hh2]
            unfold set_next
            rw [Heap.set_other _ _ _ _ hxnx, Heap.set_other _ _ _ _ hxfE,
              Heap.set_other _ _ _ _ hxnx]
          have hch2 : chain h2 none (some nx) (nx :: a0 :: rest) := by
            refine ⟨rfl, by rw [h2nx], ?_⟩
            rw [h2nx]
            refine ⟨rfl, by rw [h2fE], ?_⟩
            rw [h2fE]
            refine chain_congr (fun x hx => ?_) hrest
            exact h2x x (hrestnx x hx) (fun hxfE => hfEnotrest (hxfE ▸ hx))
          have hnodcons : (nx :: a0 :: rest).Nodup :=
            List.nodup_cons.mpr ⟨fun hm => Nat.lt_irrefl nx (hb nx hm), hnd⟩
          obtain ⟨h', fE', addrs', heq, hch', hhd', hnd', hb', hv', hlen', hlast'⟩ :=
            ih h2 nx (nx + 1) (nx :: a0 :: rest) hch2 (by simp) hnodcons
              (by
                intro x hx
                rcases List.mem_cons.mp hx with rfl | hx2
                · omega
                · have := hb x hx2; omega)
              (by
                intro x hx
                rcases List.mem_cons.mp hx with rfl | hx2
                · rw [h2nx]
                · by_cases hxfE : x = a0
                  · subst hxfE; rw [h2fE]; exact hv x (by simp)
                  · rw [h2x x (fun he => Nat.ne_of_lt (hb x (by simpa using hx2)) he) hxfE]
                    exact hv x (by simpa using hx2))
          have harith : nx + 1 + k = nx + (k + 1) := by omega
          rw [harith] at heq
          refine ⟨h', fE', addrs', heq, hch', hhd', hnd', by rw [← harith]; exact hb', hv', ?_, ?_⟩
          · simp at hlen' ⊢
            omega
          · rw [hlast']
            rw [List.getLast?_cons_cons]

theorem new_inv (T : Type) (c : Nat) :
    ∃ free : List Nat, Inv (BufState.new T c) [] free [] ∧
      (∀ a ∈ free, ((BufState.new T c).heap a).value = none) := by
  have base : chain (Heap.set (fun _ => Node.empty : Heap T) 0 Node.empty) none (some 0) [0] :=
    chain_singleton (by rw [Heap.set_same]; rfl) (by rw [Heap.set_same]; rfl)
  obtain ⟨h', fE', addrs', heq, hch, hhd, hnd, hb, hv, hlen, hlast⟩ :=
    newLoop_spec (c - 1) (Heap.set (fun _ => Node.empty) 0 Node.empty) 0 1 [0]
      base (by simp) (by simp) (by simp)
      (by intro a ha; simp at ha; subst ha; rw [Heap.set_same]; rfl)
  cases addrs' with
  | nil => simp at hhd
  | cons a2 rest2 =>
      have ha2 : a2 = fE' := by simpa using hhd
      subst ha2
      have hfE'rest2 : a2 ∉ rest2 := (List.nodup_cons.mp hnd).1
      obtain ⟨-, hprev2, hrest2⟩ := hch
      refine ⟨a2 :: rest2, ?_, ?_⟩
      · simp only [BufState.new]
        rw [heq]
        dsimp only [link_no_prev]
        refine ⟨?_, ?_, ?_, ?_, ?_, ?_, ?_, ?_, ?_, ?_⟩ <;> dsimp only
        · rfl
        · rfl
        · refine ⟨rfl, by rw [Heap.set_same], ?_⟩
          rw [Heap.set_same]
          show chain _ (some a2) (h' a2).next rest2
          refine chain_congr (fun x hx => ?_) hrest2
          exact Heap.set_other _ _ _ _ (fun hxa => hfE'rest2 (hxa ▸ hx))
        · rw [hlast]
          rfl
        · rfl
        · rfl
        · exact Nat.zero_le _
        · simp at hlen ⊢
          omega
        · simpa using hnd
        · intro x hx
          simp only [List.nil_append] at hx
          exact hb x hx
      · intro a ha
        simp only [BufState.new]
        rw [heq]
        dsimp only [link_no_prev]
        by_cases hafE : a = a2
        · subst hafE
          rw [Heap.set_same]
          exact hv a ha
        · rw [Heap.set_other _ _ _ _ hafE]
          exact hv a ha

theorem reachable_inv {T : Type} {s : BufState T} (hr : Reachable s) :
    ∃ occ free vs, Inv s occ free vs := by
  induction hr with
  | new c =>
      obtain ⟨free, hI, -⟩ := new_inv T c
      exact ⟨[], free, [], hI⟩
  | @enq s0 s1 v hre heq ih =>
      obtain ⟨occ, free, vs, hI⟩ := ih
      by_cases hlt : s0.buf.size < s0.buf.capacity
      · obtain ⟨s2, heq2, hI2, -⟩ := enqueue_ok hI v hlt
        have h3 := heq2.symm.trans heq
        injection h3 with h4
        subst h4
        exact ⟨_, _, _, hI2⟩
      · have hfull := @enqueue_full T s0 v (by omega)
        rw [hfull] at heq
        exact Except.noConfusion heq
  | @deq s0 s1 r hre heq ih =>
      obtain ⟨occ, free, vs, hI⟩ := ih
      cases occ with
      | nil =>
          have h2 := (dequeue_nil hI).symm.trans heq
          injection h2 with h3
          injection h3 with h4 h5
          subst h5
          exact ⟨[], free, vs, hI⟩
      | cons f rest =>
          cases vs with
          | nil =>
              exfalso
              have := hI.hvals
              simp at this
          | cons v vt =>
              obtain ⟨s2, heq2, hI2, -⟩ := dequeue_cons hI
              have h3 := heq2.symm.trans heq
              injection h3 with h4
              injection h4 with h5 h6
              subst h6
              exact ⟨rest, free, vt, hI2⟩

theorem enqueueAll_inv {T : Type} :
    ∀ (vs : List T) {s : BufState T} {occ free : List Nat} {ws : List T},
      Inv s occ free ws → occ.length + vs.length ≤ s.buf.capacity →
      ∃ s' occ', enqueueAll s vs = .ok s' ∧ Inv s' occ' free (ws ++ vs) ∧
        occ'.length = occ.length + vs.length := by
  intro vs
  induction vs with
  | nil =>
      intro s occ free ws hI hle
      exact ⟨s, occ, rfl, by simpa using hI, by simp⟩
  | cons v vt ih =>
      intro s occ free ws hI hle
      have hlt : s.buf.size < s.buf.capacity := by
        have := hI.hsize
        simp only [List.length_cons] at hle
        omega
      obtain ⟨s1, heq1, hI1, hcap1, -, -, -, -, -⟩ := enqueue_ok hI v hlt
      obtain ⟨s', occ', heq', hI', hlen'⟩ := ih hI1 (by
        have hc := hcap1
        simp only [List.length_append, List.length_cons, List.length_nil] at hle ⊢
        omega)
      refine ⟨s', occ', ?_, ?_, ?_⟩
      · unfold enqueueAll
        rw [heq1]
        exact heq'
      · rw [List.append_assoc, List.singleton_append] at hI'
        exact hI'
      · simp only [List.length_append, List.length_cons, List.length_nil] at hlen' ⊢
        omega

theorem dequeueN_inv {T : Type} :
    ∀ (vs : List T) {s : BufState T} {occ free : List Nat},
      Inv s occ free vs →
      ∃ s', dequeueN s vs.length = .ok (vs.map some, s') ∧ Inv s' [] free [] := by
  intro vs
  induction vs with
  | nil =>
      intro s occ free hI
      have hocc : occ = [] := by
        have h2 := hI.hvals
        simp only [List.map_nil] at h2
        exact List.map_eq_nil_iff.mp h2
      subst hocc
      exact ⟨s, rfl, hI⟩
  | cons v vt ih =>
      intro s occ free hI
      cases occ with
      | nil =>
          exfalso
          have := hI.hvals
          simp at this
      | cons f rest =>
          obtain ⟨s1, heq1, hI1, -⟩ := dequeue_cons hI
          obtain ⟨s', heq', hI'⟩ := ih hI1
          refine ⟨s', ?_, hI'⟩
          simp only [List.length_cons, List.map_cons]
          unfold dequeueN
          rw [heq1]
          dsimp only
          rw [heq']

theorem node_set_prev_none {T : Type} (n : Node T) (hp : n.prev = none) :
    { n with prev := none } = n := by
  cases n
  cases hp
  rfl

theorem node_set_next_none {T : Type} (n : Node T) (hn : n.next = none) :
    { n with next := none } = n := by
  cases n
  cases hn
  rfl

/-- C1: for every capacity `c` and every sequence of `n ≤ c` values,
enqueueing them in order into a fresh buffer of capacity `c` and then
performing `n` dequeues yields exactly `some v1, ..., some vn` in order. -/
theorem fifo_law {T : Type} (c : Nat) (vs : List T) (hle : vs.length ≤ c) :
    fifoRun T c vs = .ok (vs.map some) := by
  obtain ⟨free, hI, -⟩ := new_inv T c
  obtain ⟨s1, occ', heq1, hI1, hlen⟩ := enqueueAll_inv vs hI (by
    show [].length + vs.length ≤ c
    simpa using hle)
  obtain ⟨s2, heq2, hI2⟩ := dequeueN_inv vs hI1
  unfold fifoRun
  rw [heq1]
  dsimp only
  rw [heq2]
  rfl

/-- Witness for C1 at capacity 3 with values 10, 20, 30 (the source's own
`queue_is_fifo` scenario). -/
theorem fifo_law_witness : fifoRun Nat 3 [10, 20, 30] = .ok [some 10, some 20, some 30] :=
  fifo_law 3 [10, 20, 30] (by decide)

/-- C2 counterexample: after a single `enqueue` on a capacity-1 buffer,
`size() = 1` while the free chain still holds its 1 preallocated slot
(`enqueue` allocates a brand-new box instead of popping the free chain), so
`size() + free_slot_count() = 2 ≠ 1 = capacity()`. -/
theorem conservation_cex :
    afterOneEnqueue.buf.size +
        (chainListFuel afterOneEnqueue.heap afterOneEnqueue.nextAddr
          afterOneEnqueue.buf.first_empty).length ≠
      afterOneEnqueue.buf.capacity := by
  decide

/-- C2 (amended): at every observable point the free chain holds exactly
`max capacity 1` slots, independent of `size()`; hence
`size() + free_slot_count() = capacity()` holds exactly when the buffer is
empty and `capacity ≥ 1`. -/
theorem free_count_invariant {T : Type} {s : BufState T} (hr : Reachable s) :
    ∃ free : List Nat, chain s.heap none s.buf.first_empty free ∧
      s.buf.last_empty = free.getLast? ∧
      free.length = max s.buf.capacity 1 ∧
      (s.buf.size + free.length = s.buf.capacity ↔
        (s.buf.size = 0 ∧ 1 ≤ s.buf.capacity)) := by
  obtain ⟨occ, free, vs, hI⟩ := reachable_inv hr
  refine ⟨free, hI.hfree, hI.hlastE, hI.hfreelen, ?_⟩
  have h1 := hI.hfreelen
  rcases Nat.eq_zero_or_pos s.buf.capacity with hc | hc
  · have h5 : (max 0 1 : Nat) = 1 := rfl
    rw [hc, h5] at h1
    rw [hc]
    omega
  · have h4 : max s.buf.capacity 1 = s.buf.capacity := Nat.max_eq_left hc
    rw [h4] at h1
    omega

/-- Witness for the amended C2 at a freshly constructed capacity-3 buffer. -/
theorem free_count_invariant_witness :
    ∃ free : List Nat,
      chain (BufState.new Nat 3).heap none (BufState.new Nat 3).buf.first_empty free ∧
      (BufState.new Nat 3).buf.last_empty = free.getLast? ∧
      free.length = max (BufState.new Nat 3).buf.capacity 1 ∧
      ((BufState.new Nat 3).buf.size + free.length = (BufState.new Nat 3).buf.capacity ↔
        ((BufState.new Nat 3).buf.size = 0 ∧ 1 ≤ (BufState.new Nat 3).buf.capacity)) :=
  free_count_invariant (Reachable.new 3)

/-- C3 counterexample: on a full buffer, `enqueue` does not return any
`Result`-style value at all: its Rust signature is
`pub fn enqueue(&mut self, element: T)` (unit return) and the failure is the
`panic!("No remaining capacity to enqueue")` (the `Except.error` branch of
the embedding, carrying the panic message and the untouched state), never an
`Ok`/`Err` value handed to the caller. -/
theorem enqueue_no_result_cex :
    enqueue (BufState.new Nat 0) 7 =
        .error ("No remaining capacity to enqueue", BufState.new Nat 0) ∧
      (∀ s', enqueue (BufState.new Nat 0) 7 ≠ .ok s') := by
  have h1 : enqueue (BufState.new Nat 0) 7 =
      .error ("No remaining capacity to enqueue", BufState.new Nat 0) :=
    enqueue_full 7 (Nat.le_refl 0)
  exact ⟨h1, fun s' hk => by rw [h1] at hk; exact Except.noConfusion hk⟩

/-- C3 (amended): `enqueue` on a full buffer fails by panicking with
"No remaining capacity to enqueue" — a loud failure before any mutation
(the state carried at the panic is the input state unchanged, so no silent
no-op and no reallocation), but it is a panic, not a returned
`Result<(), CapacityExceeded>`. -/
theorem enqueue_full_panics {T : Type} (s : BufState T) (v : T)
    (hge : s.buf.capacity ≤ s.buf.size) :
    enqueue s v = .error ("No remaining capacity to enqueue", s) :=
  enqueue_full v hge

/-- Witness for the amended C3 on a full capacity-0 buffer. -/
theorem enqueue_full_panics_witness :
    enqueue (BufState.new Nat 0) 11 =
      .error ("No remaining capacity to enqueue", BufState.new Nat 0) :=
  enqueue_full_panics (BufState.new Nat 0) 11 (Nat.le_refl 0)

/-- C4: an enqueue on a buffer at full capacity fails with the capacity
panic and does not modify the observable state: the state carried at the
panic is the input state itself (the guard fires before any write), and no
success outcome exists. -/
theorem capacity_law {T : Type} (s : BufState T) (v : T)
    (hfull : s.buf.size = s.buf.capacity) :
    enqueue s v = .error ("No remaining capacity to enqueue", s) ∧
      (∀ s', enqueue s v ≠ .ok s') := by
  have h1 := enqueue_full v (Nat.le_of_eq hfull.symm)
  exact ⟨h1, fun s' hk => by rw [h1] at hk; exact Except.noConfusion hk⟩

/-- Witness for C4 on a full capacity-0 buffer. -/
theorem capacity_law_witness :
    enqueue (BufState.new Nat 0) 9 =
        .error ("No remaining capacity to enqueue", BufState.new Nat 0) ∧
      (∀ s', enqueue (BufState.new Nat 0) 9 ≠ .ok s') :=
  capacity_law (BufState.new Nat 0) 9 rfl

/-- C5 counterexample: `new(0)` does not build a free chain of exactly 0
slots: the first `Box::new(Node::empty())` happens before the
`for _ in 1..capacity` loop, so the free chain of a capacity-0 buffer holds
one slot. -/
theorem new_zero_free_count_cex :
    (chainListFuel (BufState.new Nat 0).heap (BufState.new Nat 0).nextAddr
      (BufState.new Nat 0).buf.first_empty).length ≠ 0 := by
  decide

/-- C5 (amended): `new(c)` constructs an empty buffer (`size 0`,
`capacity c`, no occupied nodes) whose free chain holds exactly `max c 1`
slots (that is, `c` slots for `c ≥ 1`, and one leftover slot for `c = 0`),
chained from `first_empty` through to a final slot whose `next` is none,
with `last_empty` referencing that final slot; all free slots are empty. -/
theorem new_spec (T : Type) (c : Nat) :
    (BufState.new T c).buf.size = 0 ∧
    (BufState.new T c).buf.capacity = c ∧
    (BufState.new T c).buf.first = none ∧
    (BufState.new T c).buf.last = none ∧
    ∃ free : List Nat,
      chain (BufState.new T c).heap none (BufState.new T c).buf.first_empty free ∧
      (BufState.new T c).buf.last_empty = free.getLast? ∧
      free.length = max c 1 ∧
      (∀ a ∈ free, ((BufState.new T c).heap a).value = none) := by
  obtain ⟨free, hI, hv⟩ := new_inv T c
  exact ⟨rfl, rfl, rfl, rfl, free, hI.hfree, hI.hlastE, hI.hfreelen, hv⟩

/-- C6: in every reachable state, `dequeue` on an empty buffer returns
`none` and leaves the state unchanged; on a non-empty buffer it returns
`some` of the head slot's value (which is always present — the internal
`.expect` can never fire), removes the head (the new `first` is the old
head's `next`) and decrements `size` by exactly one. -/
theorem dequeue_spec {T : Type} {s : BufState T} (hr : Reachable s) :
    (s.buf.size = 0 → dequeue s = .ok (none, s)) ∧
    (s.buf.size ≠ 0 → ∃ f v s',
      s.buf.first = some f ∧ (s.heap f).value = some v ∧
      dequeue s = .ok (some v, s') ∧
      s'.buf.size = s.buf.size - 1 ∧
      s'.buf.first = (s.heap f).next) ∧
    (∀ e, dequeue s ≠ .error e) := by
  obtain ⟨occ, free, vs, hI⟩ := reachable_inv hr
  have hsz := hI.hsize
  cases occ with
  | nil =>
      have hdq := dequeue_nil hI
      refine ⟨fun _ => hdq, fun hne => absurd (by simpa using hsz) hne, fun e he => ?_⟩
      rw [hdq] at he
      exact Except.noConfusion he
  | cons f rest =>
      cases vs with
      | nil =>
          exfalso
          have := hI.hvals
          simp at this
      | cons v vt =>
          obtain ⟨s', hdq, hI', -, hsz', hfirst', -, -, -, -⟩ := dequeue_cons hI
          have hval : (s.heap f).value = some v := by
            have h2 := hI.hvals
            rw [List.map_cons, List.map_cons] at h2
            injection h2 with h3 _
          refine ⟨fun h0 => ?_, fun _ => ⟨f, v, s', hI.hocc.1, hval, hdq, hsz', hfirst'⟩,
            fun e he => ?_⟩
          · rw [h0] at hsz
            simp at hsz
          · rw [hdq] at he
            exact Except.noConfusion he

/-- Witness for C6 on a freshly constructed capacity-2 buffer (empty case
applies, the error case is excluded). -/
theorem dequeue_spec_witness :
    ((BufState.new Nat 2).buf.size = 0 →
      dequeue (BufState.new Nat 2) = .ok (none, BufState.new Nat 2)) ∧
    ((BufState.new Nat 2).buf.size ≠ 0 → ∃ f v s',
      (BufState.new Nat 2).buf.first = some f ∧
      ((BufState.new Nat 2).heap f).value = some v ∧
      dequeue (BufState.new Nat 2) = .ok (some v, s') ∧
      s'.buf.size = (BufState.new Nat 2).buf.size - 1 ∧
      s'.buf.first = ((BufState.new Nat 2).heap f).next) ∧
    (∀ e, dequeue (BufState.new Nat 2) ≠ .error e) :=
  dequeue_spec (Reachable.new 2)

theorem seg_last_next {T : Type} {h : Heap T} :
    ∀ {addrs : List Nat} {p f q : Option Nat} {e : Nat},
      seg h p f addrs q → addrs.getLast? = some e → (h e).next = q := by
  intro addrs
  induction addrs with
  | nil => intro p f q e _ hl; simp at hl
  | cons x rest ih =>
      intro p f q e hs hl
      obtain ⟨hf, hp, hrest⟩ := hs
      cases rest with
      | nil =>
          simp at hl
          subst hl
          exact hrest
      | cons y t =>
          rw [List.getLast?_cons_cons] at hl
          exact ih hrest hl

/-- Turning a segment into a standalone chain: if a heap agrees with `h`
away from the last node `e`, and at `e` keeps `prev` but has `next` cleared
to none, the segment becomes a chain. -/
theorem seg_to_chain {T : Type} {h h' : Heap T} {e : Nat} :
    ∀ {addrs : List Nat} {p f q : Option Nat},
      seg h p f addrs q → addrs.getLast? = some e → addrs.Nodup →
      (∀ x ∈ addrs, x ≠ e → h' x = h x) →
      (h' e).next = none → (h' e).prev = (h e).prev →
      chain h' p f addrs := by
  intro addrs
  induction addrs with
  | nil => intro p f q _ hl; simp at hl
  | cons x rest ih =>
      intro p f q hs hl hnd hag hen hep
      obtain ⟨hf, hp, hrest⟩ := hs
      cases rest with
      | nil =>
          simp at hl
          subst hl
          exact ⟨hf, by rw [hep]; exact hp, hen⟩
      | cons y t =>
          have hxe : x ≠ e := by
            rw [List.getLast?_cons_cons] at hl
            intro heq
            subst heq
            exact (List.nodup_cons.mp hnd).1 (mem_of_getLast? hl)
          have hx : h' x = h x := hag x (by simp) hxe
          refine ⟨hf, by rw [hx]; exact hp, ?_⟩
          rw [hx]
          exact ih hrest (by rw [List.getLast?_cons_cons] at hl; exact hl)
            (List.nodup_cons.mp hnd).2 (fun z hz hze => hag z (by simp [hz]) hze) hen hep

/-- The result of `insert_slice` on non-null range boundaries, by pure
computation: the range head's `prev` takes the old `*target_end`, the range
end's `next` takes the old `*target_start`, and the four link values rotate
exactly as the source's two copy blocks dictate. -/
theorem insert_slice_some {T : Type} (h : Heap T) (s0 e0 : Nat) (ts te : Option Nat) :
    insert_slice h (some s0) (some e0) ts te =
      .ok (Heap.set (Heap.set h s0 { h s0 with prev := te }) e0
            { (Heap.set h s0 { h s0 with prev := te }) e0 with next := ts },
          ((Heap.set h s0 { h s0 with prev := te }) e0).next,
          (h s0).prev, some s0, some e0) := rfl

/-- C7: splicing a contiguous range of `m` occupied slots — a duplicate-free
segment with head `a`, last node `e`, entry `prev` `p` and continuation
`next` `q` inside a source list — into an empty destination
(`target_start = none`, `target_end` null) detaches the range from the
source: the operation hands back exactly `q` and `p` as the new values for
the source's two boundary links (both none, i.e. the source is left
`Empty`, when the range was the whole list), makes the range the
destination's entire content (`target_start`/`target_end` become the
range's head/last and the range is now a standalone chain with its internal
prev/next order unchanged), preserves every value in the range, and leaves
every node outside the range untouched — no element is lost or
duplicated. -/
theorem splice_range_into_empty {T : Type} {h : Heap T} {a e : Nat} {mid : List Nat}
    {p q : Option Nat}
    (hseg : seg h p (some a) mid q) (hlast : mid.getLast? = some e) (hnd : mid.Nodup) :
    ∃ h', insert_slice h (some a) (some e) none none = .ok (h', q, p, some a, some e) ∧
      chain h' none (some a) mid ∧
      (∀ x ∈ mid, (h' x).value = (h x).value) ∧
      (∀ x, x ∉ mid → h' x = h x) := by
  cases mid with
  | nil => simp at hlast
  | cons a0 rest =>
      obtain ⟨hf0, hp0, hrest0⟩ := hseg
      have ha0 : a = a0 := by injection hf0
      subst ha0
      have hq : (h e).next = q :=
        seg_last_next (show seg h p (some a) (a :: rest) q from ⟨rfl, hp0, hrest0⟩) hlast
      have hemem : e ∈ a :: rest := mem_of_getLast? hlast
      have hrs : ((Heap.set h a { h a with prev := (none : Option Nat) }) e).next = q := by
        by_cases hae : e = a
        · subst hae
          rw [Heap.set_same]
          exact hq
        · rw [Heap.set_other _ _ _ _ hae]
          exact hq
      have hvalpres : ∀ x,
          ((Heap.set (Heap.set h a { h a with prev := (none : Option Nat) }) e
            { (Heap.set h a { h a with prev := (none : Option Nat) }) e with
                next := (none : Option Nat) }) x).value = (h x).value := by
        intro x
        by_cases hxe : x = e
        · subst hxe
          rw [Heap.set_same]
          by_cases hxa : x = a
          · subst hxa
            rw [Heap.set_same]
          · rw [Heap.set_other _ _ _ _ hxa]
        · rw [Heap.set_other _ _ _ _ hxe]
          by_cases hxa : x = a
          · subst hxa
            rw [Heap.set_same]
          · rw [Heap.set_other _ _ _ _ hxa]
      have hframe : ∀ x, x ≠ a → x ≠ e →
          (Heap.set (Heap.set h a { h a with prev := (none : Option Nat) }) e
            { (Heap.set h a { h a with prev := (none : Option Nat) }) e with
                next := (none : Option Nat) }) x = h x := by
        intro x hxa hxe
        rw [Heap.set_other _ _ _ _ hxe, Heap.set_other _ _ _ _ hxa]
      refine ⟨Heap.set (Heap.set h a { h a with prev := (none : Option Nat) }) e
        { (Heap.set h a { h a with prev := (none : Option Nat) }) e with
            next := (none : Option Nat) }, ?_, ?_, ?_, ?_⟩
      · rw [insert_slice_some, hrs, hp0]
      · cases rest with
        | nil =>
            have hea : a = e := by simpa using hlast
            subst hea
            refine ⟨rfl, ?_, ?_⟩
            · rw [Heap.set_same, Heap.set_same]
            · show ((Heap.set (Heap.set h a { h a with prev := (none : Option Nat) }) a
                { (Heap.set h a { h a with prev := (none : Option Nat) }) a with
                    next := (none : Option Nat) }) a).next = none
              rw [Heap.set_same]
        | cons b rest2 =>
            have hmem2 : e ∈ b :: rest2 := by
              rw [List.getLast?_cons_cons] at hlast
              exact mem_of_getLast? hlast
            have hanotin : a ∉ b :: rest2 := (List.nodup_cons.mp hnd).1
            have hae : a ≠ e := fun heq => hanotin (heq ▸ hmem2)
            have hLITa : (Heap.set (Heap.set h a { h a with prev := (none : Option Nat) }) e
                { (Heap.set h a { h a with prev := (none : Option Nat) }) e with
                    next := (none : Option Nat) }) a = ⟨(h a).next, none, (h a).value⟩ := by
              rw [Heap.set_other _ _ _ _ hae, Heap.set_same]
            refine ⟨rfl, by rw [hLITa], ?_⟩
            have hnexteq : ((Heap.set (Heap.set h a { h a with prev := (none : Option Nat) }) e
                { (Heap.set h a { h a with prev := (none : Option Nat) }) e with
                    next := (none : Option Nat) }) a).next = (h a).next := by
              rw [hLITa]
            rw [hnexteq]
            refine seg_to_chain hrest0
              (by rw [List.getLast?_cons_cons] at hlast; exact hlast)
              (List.nodup_cons.mp hnd).2 ?_ ?_ ?_
            · intro x hx hxe
              exact hframe x (fun heq => hanotin (heq ▸ hx)) hxe
            · rw [Heap.set_same]
            · rw [Heap.set_same, Heap.set_other _ _ _ _ (Ne.symm hae)]
      · exact fun x _ => hvalpres x
      · intro x hx
        exact hframe x (fun heq => hx (heq ▸ (by simp : a ∈ a :: rest)))
          (fun heq => hx (heq ▸ hemem))

/-- Witness for C7: the source's own `swaps_single_item_list_with_empty`
test scenario — a single-node list spliced into an empty one leaves both
source links none and hands the destination the node, value intact. -/
theorem splice_single_into_empty_witness :
    ∃ h', insert_slice (fun _ => (⟨none, none, some 42⟩ : Node Nat)) (some 0) (some 0) none none =
        .ok (h', none, none, some 0, some 0) ∧
      chain h' none (some 0) [0] ∧
      (∀ x ∈ [0], (h' x).value = ((fun _ => (⟨none, none, some 42⟩ : Node Nat)) x).value) ∧
      (∀ x, x ∉ [0] → h' x = (fun _ => (⟨none, none, some 42⟩ : Node Nat)) x) :=
  @splice_range_into_empty Nat (fun _ => (⟨none, none, some 42⟩ : Node Nat)) 0 0 [0] none none
    ⟨rfl, rfl, rfl⟩ rfl (by simp)

/-- C8: after every public operation (i.e. in every reachable state) the
occupied chain is consistently doubly linked: there is a duplicate-free
address list `occ` with `first`/`last` its head/last, every in-chain `next`
lands in `occ` on a node whose `prev` points back (and symmetrically for
`prev`), the head's `prev` is none and the tail's `next` is none. -/
theorem occupied_doubly_linked {T : Type} {s : BufState T} (hr : Reachable s) :
    ∃ occ : List Nat, occ.Nodup ∧
      s.buf.first = occ.head? ∧ s.buf.last = occ.getLast? ∧
      (∀ a ∈ occ, ∀ b, (s.heap a).next = some b → b ∈ occ ∧ (s.heap b).prev = some a) ∧
      (∀ a ∈ occ, ∀ b, (s.heap a).prev = some b → b ∈ occ ∧ (s.heap b).next = some a) ∧
      (∀ a, occ.head? = some a → (s.heap a).prev = none) ∧
      (∀ a, occ.getLast? = some a → (s.heap a).next = none) := by
  obtain ⟨occ, free, vs, hI⟩ := reachable_inv hr
  have hnd : occ.Nodup := (List.nodup_append.mp hI.hnodup).1
  refine ⟨occ, hnd, ?_, hI.hlast, ?_, ?_, ?_, ?_⟩
  · cases occ with
    | nil => exact hI.hocc
    | cons a rest => exact hI.hocc.1
  · exact fun a ha b hn => chain_next_closed hI.hocc a ha b hn
  · intro a ha b hp
    rcases chain_prev_closed hI.hocc a ha b hp with ⟨-, hnone⟩ | hok
    · exact Option.noConfusion hnone
    · exact hok
  · intro a ha
    cases occ with
    | nil => simp at ha
    | cons x rest =>
        have hx : x = a := by simpa using ha
        subst hx
        exact hI.hocc.2.1
  · exact fun a ha => chain_last_next hI.hocc ha

/-- Witness for C8 on a freshly constructed capacity-2 buffer. -/
theorem occupied_doubly_linked_witness :
    ∃ occ : List Nat, occ.Nodup ∧
      (BufState.new Nat 2).buf.first = occ.head? ∧
      (BufState.new Nat 2).buf.last = occ.getLast? ∧
      (∀ a ∈ occ, ∀ b, ((BufState.new Nat 2).heap a).next = some b →
        b ∈ occ ∧ ((BufState.new Nat 2).heap b).prev = some a) ∧
      (∀ a ∈ occ, ∀ b, ((BufState.new Nat 2).heap a).prev = some b →
        b ∈ occ ∧ ((BufState.new Nat 2).heap b).next = some a) ∧
      (∀ a, occ.head? = some a → ((BufState.new Nat 2).heap a).prev = none) ∧
      (∀ a, occ.getLast? = some a → ((BufState.new Nat 2).heap a).next = none) :=
  occupied_doubly_linked (Reachable.new 2)

/-- C9: `insert_slice` fails — with the explicit panic message of the
corresponding null check — exactly when `range_start` or `range_end` is
none; when both are non-null the null checks pass and the operation
succeeds. -/
theorem insert_slice_null_check {T : Type} (h : Heap T) (rs re ts te : Option Nat) :
    (rs = none → insert_slice h rs re ts te = .error ("range_start must not be none")) ∧
    (rs ≠ none → re = none →
      insert_slice h rs re ts te = .error ("range_end must not be none")) ∧
    ((∃ r, insert_slice h rs re ts te = .ok r) ↔ (rs ≠ none ∧ re ≠ none)) := by
  cases rs with
  | none =>
      refine ⟨fun _ => rfl, fun hne => absurd rfl hne, ?_⟩
      constructor
      · rintro ⟨r, hr⟩
        exact Except.noConfusion hr
      · rintro ⟨hne, -⟩
        exact absurd rfl hne
  | some s0 =>
      cases re with
      | none =>
          refine ⟨fun hc => Option.noConfusion hc, fun _ _ => rfl, ?_⟩
          constructor
          · rintro ⟨r, hr⟩
            exact Except.noConfusion hr
          · rintro ⟨-, hne⟩
            exact absurd rfl hne
      | some e0 =>
          refine ⟨fun hc => Option.noConfusion hc, fun _ hc => Option.noConfusion hc, ?_⟩
          constructor
          · intro _
            exact ⟨by simp, by simp⟩
          · intro _
            exact ⟨_, rfl⟩

/-- Witness for C9: a null `range_start` is rejected with its panic
message. -/
theorem insert_slice_null_check_witness :
    insert_slice (fun _ => (Node.empty : Node Nat)) none (some 0) none none =
      .error ("range_start must not be none") :=
  (insert_slice_null_check (fun _ => Node.empty) none (some 0) none none).1 rfl

/-- C10: in every reachable state the free chain is a frame for both public
operations: a successful `enqueue` leaves `first_empty`, `last_empty` and
every node of the free chain untouched (the new node sits at the fresh
address `nextAddr`, which is not a free-chain slot), a failed `enqueue`
panics with the state unchanged, and `dequeue` likewise leaves the whole
free chain intact (the removed node is discarded, not pushed onto it). -/
theorem free_chain_frame {T : Type} {s : BufState T} (hr : Reachable s) :
    ∃ free : List Nat,
      chain s.heap none s.buf.first_empty free ∧
      s.buf.last_empty = free.getLast? ∧
      (∀ (v : T) s', enqueue s v = .ok s' →
        s'.buf.first_empty = s.buf.first_empty ∧
        s'.buf.last_empty = s.buf.last_empty ∧
        (∀ x ∈ free, s'.heap x = s.heap x) ∧
        chain s'.heap none s'.buf.first_empty free ∧
        s'.buf.last = some s.nextAddr ∧ s.nextAddr ∉ free) ∧
      (∀ (v : T) e, enqueue s v = .error e → e.2 = s) ∧
      (∀ r s', dequeue s = .ok (r, s') →
        s'.buf.first_empty = s.buf.first_empty ∧
        s'.buf.last_empty = s.buf.last_empty ∧
        (∀ x ∈ free, s'.heap x = s.heap x) ∧
        chain s'.heap none s'.buf.first_empty free) := by
  obtain ⟨occ, free, vs, hI⟩ := reachable_inv hr
  refine ⟨free, hI.hfree, hI.hlastE, ?_, ?_, ?_⟩
  · intro v s' heq
    by_cases hlt : s.buf.size < s.buf.capacity
    · obtain ⟨s2, heq2, hI2, -, hfe, hle2, hagree, -, hlast2⟩ := enqueue_ok hI v hlt
      have h3 := heq2.symm.trans heq
      injection h3 with h4
      subst h4
      exact ⟨hfe, hle2, hagree, hI2.hfree, hlast2,
        fun hm => Nat.lt_irrefl _ (hI.hbound _ (List.mem_append_right _ hm))⟩
    · rw [enqueue_full v (by omega)] at heq
      exact Except.noConfusion heq
  · intro v e heq
    by_cases hlt : s.buf.size < s.buf.capacity
    · obtain ⟨s2, heq2, -⟩ := enqueue_ok hI v hlt
      rw [heq2] at heq
      exact Except.noConfusion heq
    · rw [enqueue_full v (by omega)] at heq
      injection heq with h4
      rw [← h4]
  · intro r s' heq
    cases occ with
    | nil =>
        have h2 := (dequeue_nil hI).symm.trans heq
        injection h2 with h3
        injection h3 with h4 h5
        subst h5
        exact ⟨rfl, rfl, fun x _ => rfl, hI.hfree⟩
    | cons f rest =>
        cases vs with
        | nil =>
            exfalso
            have := hI.hvals
            simp at this
        | cons v vt =>
            obtain ⟨s2, heq2, hI2, -, -, -, hfe, hle2, hagree, -⟩ := dequeue_cons hI
            have h3 := heq2.symm.trans heq
            injection h3 with h4
            injection h4 with h5 h6
            subst h6
            exact ⟨hfe, hle2, hagree, hI2.hfree⟩

/-- Witness for C10 on a freshly constructed capacity-2 buffer. -/
theorem free_chain_frame_witness :
    ∃ free : List Nat,
      chain (BufState.new Nat 2).heap none (BufState.new Nat 2).buf.first_empty free ∧
      (BufState.new Nat 2).buf.last_empty = free.getLast? ∧
      (∀ (v : Nat) s', enqueue (BufState.new Nat 2) v = .ok s' →
        s'.buf.first_empty = (BufState.new Nat 2).buf.first_empty ∧
        s'.buf.last_empty = (BufState.new Nat 2).buf.last_empty ∧
        (∀ x ∈ free, s'.heap x = (BufState.new Nat 2).heap x) ∧
        chain s'.heap none s'.buf.first_empty free ∧
        s'.buf.last = some (BufState.new Nat 2).nextAddr ∧
        (BufState.new Nat 2).nextAddr ∉ free) ∧
      (∀ (v : Nat) e, enqueue (BufState.new Nat 2) v = .error e → e.2 = BufState.new Nat 2) ∧
      (∀ r s', dequeue (BufState.new Nat 2) = .ok (r, s') →
        s'.buf.first_empty = (BufState.new Nat 2).buf.first_empty ∧
        s'.buf.last_empty = (BufState.new Nat 2).buf.last_empty ∧
        (∀ x ∈ free, s'.heap x = (BufState.new Nat 2).heap x) ∧
        chain s'.heap none s'.buf.first_empty free) :=
  free_chain_frame (Reachable.new 2)

end FSPB
